import Mathlib

/-!
Shallow embedding of the obsidian-pdf-utils plugin core
(src/safetyUtils.ts and the PDFProcessor / PDFResectorModal code in
src/main.ts).  JavaScript strings are modelled as `List Char`, byte
buffers as `List Nat`, and the Obsidian `DataAdapter` as a small state
machine with an error-injection schedule so that adapter failures
(disk full, racy mkdir, …) can be expressed.
-/

namespace PDFUtils

/-- JavaScript strings, modelled as lists of characters. -/
abbrev Str := List Char

/-- Binary buffers (`Uint8Array` contents), modelled as lists of naturals. -/
abbrev Bytes := List Nat

/-! ## SafetyUtils.sanitizeString / sanitizePath (src/safetyUtils.ts, lines 39-64) -/

/-- The character class of the regex `[<>:"|?*\\]` in `sanitizeString`:
characters replaced by a dash. -/
def isInvalidChar (c : Char) : Bool :=
  c == '<' || c == '>' || c == ':' || c == '"' || c == '|' || c == '?' ||
  c == '*' || c == '\\'

/-- The ECMAScript whitespace class: what the regex `\s` matches and what
`String.prototype.trim` removes (WhiteSpace ∪ LineTerminator). -/
def isSpaceChar (c : Char) : Bool :=
  c == ' ' || c == '\t' || c == '\n' || c == '\r' ||
  c.val == 0x0B || c.val == 0x0C || c.val == 0xA0 || c.val == 0x1680 ||
  (0x2000 ≤ c.val && c.val ≤ 0x200A) ||
  c.val == 0x2028 || c.val == 0x2029 || c.val == 0x202F || c.val == 0x205F ||
  c.val == 0x3000 || c.val == 0xFEFF

/-- The character class of the regex `[-]` used by the dash-collapsing step. -/
def isDashChar (c : Char) : Bool := c == '-'

/-- Models `String.replace` with a global regex `/p+/` and a single-character
replacement `r`: every maximal run of characters satisfying `p` becomes one
copy of `r`.  The flag records whether the previous character was in a run. -/
def collapseAux (p : Char → Bool) (r : Char) : Bool → Str → Str
  | _, [] => []
  | inRun, c :: cs =>
    if p c then
      if inRun then collapseAux p r true cs
      else r :: collapseAux p r true cs
    else c :: collapseAux p r false cs

/-- `replace(/p+/g, r)` on a whole string. -/
def collapseRuns (p : Char → Bool) (r : Char) (l : Str) : Str :=
  collapseAux p r false l

/-- Drop the longest suffix of characters satisfying `p`. -/
def dropTrailing (p : Char → Bool) (l : Str) : Str :=
  (l.reverse.dropWhile p).reverse

/-- `String.prototype.trim`: strip leading and trailing whitespace. -/
def trimStr (l : Str) : Str :=
  dropTrailing isSpaceChar (l.dropWhile isSpaceChar)

/-- `SafetyUtils.sanitizeString`: replace each invalid character with `-`,
collapse whitespace runs to a single space, collapse dash runs to a single
dash, then trim. -/
def sanitizeString (l : Str) : Str :=
  trimStr (collapseRuns isDashChar '-'
    (collapseRuns isSpaceChar ' '
      (l.map (fun c => if isInvalidChar c then '-' else c))))

/-- `String.prototype.lastIndexOf` for a single character: the index of its
last occurrence, or `none` (JavaScript returns `-1`). -/
def lastIdxOf (c : Char) : Str → Option Nat
  | [] => none
  | a :: as =>
    match lastIdxOf c as with
    | some i => some (i + 1)
    | none => if a = c then some 0 else none

/-- `SafetyUtils.sanitizePath`: split at the last dot; with no dot sanitize the
whole string, otherwise sanitize only the base name and keep the extension
(from the last dot onward, dot included) verbatim. -/
def sanitizePath (filename : Str) : Str :=
  match lastIdxOf '.' filename with
  | none => sanitizeString filename
  | some i => sanitizeString (filename.take i) ++ filename.drop i

/-- Verification predicate for the collapsing passes: relative to an
incoming-run flag `prev`, every character satisfying `p` is the replacement
`r` and no such character follows another (mirrors `collapseAux`'s flag). -/
def NormalAux (p : Char → Bool) (r : Char) : Bool → Str → Prop
  | _, [] => True
  | prev, c :: cs =>
    if p c = true then c = r ∧ prev = false ∧ NormalAux p r true cs
    else NormalAux p r false cs

/-! ## SafetyUtils.isPathInVault (src/safetyUtils.ts, lines 16-37) -/

/-- The regex `replace(/^\/+|\/+$/g, '')`: strip leading and trailing
slash runs. -/
def stripSlashes (l : Str) : Str :=
  dropTrailing (fun c => c == '/') (l.dropWhile (fun c => c == '/'))

/-- `String.prototype.includes` for list-modelled strings: does `needle`
occur as a contiguous substring? -/
def isSubstr (needle : Str) : Str → Bool
  | [] => needle == []
  | c :: rest => needle.isPrefixOf (c :: rest) || isSubstr needle rest

/-- The per-component test in `isPathInVault`: non-empty, not `.` or `..`,
and free of backslash and colon. -/
def validComponent (comp : Str) : Bool :=
  comp != [] && comp != ['.'] && comp != ['.', '.'] &&
  !(comp.contains '\\') && !(comp.contains ':')

/-- `SafetyUtils.isPathInVault`: reject any path containing `../` or `..\`,
then strip outer slashes, split on `/`, and require every component valid. -/
def isPathInVault (path : Str) : Bool :=
  if isSubstr ("../".data) path || isSubstr ("..\\".data) path then false
  else ((stripSlashes path).splitOn '/').all validComponent

/-! ## pdf-lib document model and PDFProcessor.extractPages (src/main.ts, lines 352-375) -/

/-- A loaded PDF document: the list of its pages, each page an opaque content
identifier.  `extractPages` only reads from its source document and builds a
fresh one, so documents are modelled as immutable values. -/
structure PDF where
  pages : List Nat
deriving DecidableEq, Repr

/-- Failures inside extractPages: pdf-lib throws when `copyPages` is handed a
page index outside the source document. -/
inductive ExtractErr where
  | badIndex (i : Int)
deriving DecidableEq, Repr

/-- `newDoc.copyPages(doc, [pageIndex])` for one zero-based index: a copy of
that page of `doc`, or a failure when the index is out of range. -/
def copyPage (doc : PDF) (i : Int) : Except ExtractErr Nat :=
  if 0 ≤ i then
    match doc.pages[i.toNat]? with
    | some p => .ok p
    | none => .error (.badIndex i)
  else .error (.badIndex i)

/-- The `for (const pageIndex of pageIndexes)` loop of extractPages: copy each
index in turn, appending to the pages added to `newDoc` so far. -/
def copyLoop (doc : PDF) : List Int → List Nat → Except ExtractErr (List Nat)
  | [], acc => .ok acc
  | i :: rest, acc =>
    match copyPage doc i with
    | .ok p => copyLoop doc rest (acc ++ [p])
    | .error e => .error e

/-- The zero-based index sequence
`Array.from({length: endPage - startPage + 1}, (_, i) => i + startPage - 1)`;
JavaScript's ToLength clamps a negative length to zero. -/
def pageIndexes (startPage endPage : Int) : List Int :=
  (List.range (endPage - startPage + 1).toNat).map (fun k : Nat => (k : Int) + startPage - 1)

/-- `PDFProcessor.extractPages`: copy pages `startPage..endPage` (1-based,
inclusive) of `doc` into a newly created empty document.  The code performs no
bound checks of its own. -/
def extractPages (doc : PDF) (startPage endPage : Int) : Except ExtractErr PDF :=
  match copyLoop doc (pageIndexes startPage endPage) [] with
  | .ok ps => .ok ⟨ps⟩
  | .error e => .error e

/-- The messages produced by `PDFResectorModal.validateInput`
(src/main.ts, lines 216-233). -/
inductive ValidationMsg where
  | selectPdf
  | notLoaded
  | invalidPageNumbers
  | pageOutOfRange (n : Nat)
  | noOutputName
deriving DecidableEq, Repr

/-- `PDFResectorModal.validateInput`: `none` (JavaScript `null`) when the modal
state is valid, otherwise the first failing check's message.  `!this.startPage`
is JavaScript number falsiness, i.e. the test `startPage = 0`. -/
def validateInput (pdfPath : Str) (docLoaded : Option PDF) (startPage endPage : Int)
    (outputName : Str) : Option ValidationMsg :=
  if pdfPath = [] then some .selectPdf
  else
    match docLoaded with
    | none => some .notLoaded
    | some doc =>
      if startPage = 0 ∨ endPage = 0 ∨ startPage > endPage then some .invalidPageNumbers
      else if startPage < 1 ∨ endPage > (doc.pages.length : Int) then
        some (.pageOutOfRange doc.pages.length)
      else if outputName = [] then some .noOutputName
      else none

/-! ## The Obsidian vault adapter, modelled as a state machine with error injection -/

/-- Injectable adapter-call failures: a full disk, an EEXIST raised by a
concurrent mkdir, a missing file. -/
inductive IOKind where
  | diskFull
  | alreadyExists
  | notFound
deriving DecidableEq, Repr

/-- The errors thrown by the TypeScript code.  The wrapping constructors
mirror the `throw new Error(...)` re-wrapping of a lower-level message. -/
inductive Err where
  | invalidPath
  | adapter (k : IOKind)
  | failedToCreateDirectory (inner : Err)
  | failedToSave (inner : Err)
  | failedToVerify (inner : Err)
  | fileNotSaved
deriving DecidableEq, Repr

/-- Vault contents: the files with their bytes, and the directories. -/
structure FS where
  files : List (Str × Bytes)
  dirs : List Str
deriving DecidableEq, Repr

/-- A vault world: the filesystem plus a schedule of injected outcomes, one
entry consumed per adapter call (`none` = the call behaves normally, `some k`
= the call fails with `k`; an exhausted schedule means no further injected
failures). -/
structure World where
  fs : FS
  schedule : List (Option IOKind)
deriving DecidableEq, Repr

/-- Association-list lookup of a file's bytes. -/
def lookupFile (p : Str) : List (Str × Bytes) → Option Bytes
  | [] => none
  | (q, d) :: rest => if q = p then some d else lookupFile p rest

/-- Remove every entry for path `p`. -/
def eraseFile (p : Str) : List (Str × Bytes) → List (Str × Bytes)
  | [] => []
  | (q, d) :: rest => if q = p then eraseFile p rest else (q, d) :: eraseFile p rest

/-- Write (create or overwrite) the file at `p`. -/
def setFile (p : Str) (data : Bytes) (fs : FS) : FS :=
  { fs with files := (p, data) :: eraseFile p fs.files }

/-- Delete the file at `p`. -/
def removeFile (p : Str) (fs : FS) : FS :=
  { fs with files := eraseFile p fs.files }

/-- Record the directory `p` as created. -/
def addDir (p : Str) (fs : FS) : FS :=
  { fs with dirs := p :: fs.dirs }

/-- Directory membership. -/
def containsStr (p : Str) : List Str → Bool
  | [] => false
  | q :: rest => if q = p then true else containsStr p rest

/-- Ground truth for `adapter.exists`: a file or a folder at `p`. -/
def existsFS (p : Str) (fs : FS) : Bool :=
  (lookupFile p fs.files).isSome || containsStr p fs.dirs

/-- Consume the next schedule entry. -/
def popSchedule (w : World) : Option IOKind × World :=
  match w.schedule with
  | [] => (none, w)
  | h :: t => (h, { w with schedule := t })

/-- `adapter.exists`. -/
def existsA (p : Str) (w : World) : Except Err Bool × World :=
  match popSchedule w with
  | (some k, w1) => (.error (.adapter k), w1)
  | (none, w1) => (.ok (existsFS p w1.fs), w1)

/-- `adapter.writeBinary`: the whole buffer is written in one call; the call
either fully succeeds or fails leaving the target unchanged. -/
def writeA (p : Str) (data : Bytes) (w : World) : Except Err Unit × World :=
  match popSchedule w with
  | (some k, w1) => (.error (.adapter k), w1)
  | (none, w1) => (.ok (), { w1 with fs := setFile p data w1.fs })

/-- `adapter.remove`: fails on a missing file. -/
def removeA (p : Str) (w : World) : Except Err Unit × World :=
  match popSchedule w with
  | (some k, w1) => (.error (.adapter k), w1)
  | (none, w1) =>
    if (lookupFile p w1.fs.files).isSome then (.ok (), { w1 with fs := removeFile p w1.fs })
    else (.error (.adapter .notFound), w1)

/-- `adapter.mkdir`. -/
def mkdirA (p : Str) (w : World) : Except Err Unit × World :=
  match popSchedule w with
  | (some k, w1) => (.error (.adapter k), w1)
  | (none, w1) => (.ok (), { w1 with fs := addDir p w1.fs })

/-- `adapter.readBinary`. -/
def readA (p : Str) (w : World) : Except Err Bytes × World :=
  match popSchedule w with
  | (some k, w1) => (.error (.adapter k), w1)
  | (none, w1) =>
    match lookupFile p w1.fs.files with
    | some d => (.ok d, w1)
    | none => (.error (.adapter .notFound), w1)

/-! ## SafetyUtils.validateAndCreatePath and ensureDirectoryExists
(src/safetyUtils.ts, lines 66-109) -/

/-- `outputPath.split('/')` followed by `.pop() || 'output'`: the final
segment, defaulted when it is the empty string. -/
def outputFilename (p : Str) : Str :=
  match (p.splitOn '/').getLast? with
  | some f => if f = [] then "output".data else f
  | none => "output".data

/-- The remaining segments re-joined with `/`: the directory part. -/
def outputDirectory (p : Str) : Str :=
  List.intercalate ['/'] ((p.splitOn '/').dropLast)

/-- The string `validateAndCreatePath` returns on success:
`directory + '/' + sanitizedFilename`, or just the sanitized filename when the
directory part is the empty string (JavaScript falsiness of `''`). -/
def safePathOf (p : Str) : Str :=
  if outputDirectory p = [] then sanitizePath (outputFilename p)
  else outputDirectory p ++ '/' :: sanitizePath (outputFilename p)

/-- `SafetyUtils.validateAndCreatePath`: validate against the vault, split off
the filename, sanitize it, create the directory if reported missing (wrapping
any adapter error into a failed-to-create-directory error), and return the
recombined path. -/
def validateAndCreatePath (p : Str) (w : World) : Except Err Str × World :=
  if isPathInVault p then
    if outputDirectory p = [] then (.ok (safePathOf p), w)
    else
      match existsA (outputDirectory p) w with
      | (.ok true, w1) => (.ok (safePathOf p), w1)
      | (.ok false, w1) =>
        match mkdirA (outputDirectory p) w1 with
        | (.ok _, w2) => (.ok (safePathOf p), w2)
        | (.error e, w2) => (.error (.failedToCreateDirectory e), w2)
      | (.error e, w1) => (.error (.failedToCreateDirectory e), w1)
  else (.error .invalidPath, w)

/-- The accumulation step of `ensureDirectoryExists`:
`currentPath = currentPath ? currentPath + '/' + part : part`. -/
def extendPath (currentPath part : Str) : Str :=
  if currentPath = [] then part else currentPath ++ '/' :: part

/-- Fold of `extendPath` over a segment list: the prefix path accumulated
after walking those segments. -/
def accumPath (currentPath : Str) (parts : List Str) : Str :=
  parts.foldl extendPath currentPath

/-- Every prefix accumulated while walking `parts` from `currentPath` already
exists in `fs` (the condition under which the walk performs no mkdir). -/
def allPrefixesExist (fs : FS) : Str → List Str → Bool
  | _, [] => true
  | cp, part :: rest =>
    existsFS (extendPath cp part) fs && allPrefixesExist fs (extendPath cp part) rest

/-- The loop of `SafetyUtils.ensureDirectoryExists`, over the remaining parts
with the accumulated `currentPath` (empty before the first part). -/
def ensureDirLoop (parts : List Str) (currentPath : Str) (w : World) :
    Except Err Unit × World :=
  match parts with
  | [] => (.ok (), w)
  | part :: rest =>
    let cp := extendPath currentPath part
    match existsA cp w with
    | (.error e, w1) => (.error e, w1)
    | (.ok true, w1) => ensureDirLoop rest cp w1
    | (.ok false, w1) =>
      match mkdirA cp w1 with
      | (.error e, w2) => (.error e, w2)
      | (.ok _, w2) => ensureDirLoop rest cp w2

/-- `SafetyUtils.ensureDirectoryExists`: walk the `/`-separated parts,
checking existence of each accumulated prefix and creating it when reported
absent.  Adapter errors propagate: the body has no try/catch. -/
def ensureDirectoryExists (directory : Str) (w : World) : Except Err Unit × World :=
  if directory = [] then (.ok (), w)
  else ensureDirLoop ((directory.splitOn '/').filter (fun part => decide (0 < part.length))) [] w

/-! ## PDFProcessor.savePDF and ensureSafeOutput (src/main.ts, lines 378-471) -/

/-- `doc.save()`: the pdf-lib byte serialization.  The codec is external to
the repository and opaque to the core, so it is modelled as an injective
encoding of the page list (the page list itself); in-memory encoding failures
are not modelled, as no claim concerns them. -/
def serialize (doc : PDF) : Bytes := doc.pages

/-- The tail of savePDF's try block: the final write at `safePath`, then the
best-effort temp-file cleanup whose failure is logged, not propagated. -/
def savePDFFinalWrite (pdfBytes : Bytes) (safePath tempPath : Str) (w : World) :
    Except Err Unit × World :=
  match writeA safePath pdfBytes w with
  | (.error e, w1) => (.error e, w1)
  | (.ok _, w1) =>
    match removeA tempPath w1 with
    | (_, w2) => (.ok (), w2)

/-- The body of savePDF's main try block: serialize, write the temp file,
remove a pre-existing file at `safePath`, final-write, cleanup. -/
def savePDFBody (doc : PDF) (safePath tempPath : Str) (w : World) :
    Except Err Unit × World :=
  let pdfBytes := serialize doc
  match writeA tempPath pdfBytes w with
  | (.error e, w1) => (.error e, w1)
  | (.ok _, w1) =>
    match existsA safePath w1 with
    | (.error e, w2) => (.error e, w2)
    | (.ok true, w2) =>
      match removeA safePath w2 with
      | (.error e, w3) => (.error e, w3)
      | (.ok _, w3) => savePDFFinalWrite pdfBytes safePath tempPath w3
    | (.ok false, w2) => savePDFFinalWrite pdfBytes safePath tempPath w2

/-- `PDFProcessor.savePDF`: validate and provision the output path, run the
temp-write / remove-old / final-write / cleanup protocol (on error inside the
try block, best-effort remove the temp file and rethrow wrapped as a
failed-to-save error), then verify that the final file exists, wrapping
verification failures. -/
def savePDF (doc : PDF) (outputPath : Str) (w : World) : Except Err Unit × World :=
  match validateAndCreatePath outputPath w with
  | (.error e, w1) => (.error e, w1)
  | (.ok safePath, w1) =>
    let tempPath := safePath ++ ".temp".data
    match savePDFBody doc safePath tempPath w1 with
    | (.error e, w2) =>
      match removeA tempPath w2 with
      | (_, w3) => (.error (.failedToSave e), w3)
    | (.ok _, w2) =>
      match existsA safePath w2 with
      | (.ok true, w3) => (.ok (), w3)
      | (.ok false, w3) => (.error (.failedToVerify .fileNotSaved), w3)
      | (.error e, w3) => (.error (.failedToVerify e), w3)

/-- `PDFProcessor.ensureSafeOutput`: validate and provision the path; when a
file already exists there, return the user's overwrite/cancel choice (the
Notice-button interaction is modelled as the `decision` input); otherwise
return `true`. -/
def ensureSafeOutput (decision : Bool) (outputPath : Str) (w : World) :
    Except Err Bool × World :=
  match validateAndCreatePath outputPath w with
  | (.error e, w1) => (.error e, w1)
  | (.ok safePath, w1) =>
    match existsA safePath w1 with
    | (.error e, w2) => (.error e, w2)
    | (.ok true, w2) => (.ok decision, w2)
    | (.ok false, w2) => (.ok true, w2)

/-! ## Concrete vault worlds and documents used by witnesses and counterexamples -/

/-- A three-page demo document. -/
def demoDoc : PDF := ⟨[10, 20, 30]⟩

/-- A ten-page demo document. -/
def demoDoc10 : PDF := ⟨[1, 2, 3, 4, 5, 6, 7, 8, 9, 10]⟩

/-- An empty vault with no injected failures. -/
def emptyWorld : World := ⟨⟨[], []⟩, []⟩

/-- A vault already holding `out.pdf` with bytes `[7, 7]`, whose schedule
makes the fourth adapter call — savePDF's final write — fail with a disk-full
error. -/
def diskFullWorld : World :=
  ⟨⟨[("out.pdf".data, [7, 7])], []⟩, [none, none, none, some .diskFull, none]⟩

/-- A vault already holding `out.pdf`, with no injected failures. -/
def existingFileWorld : World := ⟨⟨[("out.pdf".data, [7, 7])], []⟩, []⟩

/-- A vault where directory `a` is absent, the existence check behaves
normally (reporting absent), and the mkdir call that follows fails with an
already-exists error: the benign race of claim C6. -/
def raceWorld : World := ⟨⟨[], []⟩, [none, some .alreadyExists]⟩

/-! ## Basic facts about the filesystem model -/

theorem lookupFile_eraseFile_ne (p q : Str) (h : q ≠ p) :
    ∀ files : List (Str × Bytes), lookupFile q (eraseFile p files) = lookupFile q files := by
  intro files
  induction files with
  | nil => rfl
  | cons hd tl ih =>
    rcases hd with ⟨a, d⟩
    by_cases hap : a = p
    · subst hap
      have : a ≠ q := fun hh => h hh.symm
      simp [eraseFile, lookupFile, this, ih]
    · by_cases haq : a = q
      · subst haq
        simp [eraseFile, lookupFile, hap]
      · simp [eraseFile, lookupFile, hap, haq, ih]

theorem lookupFile_eraseFile_self (p : Str) :
    ∀ files : List (Str × Bytes), lookupFile p (eraseFile p files) = none := by
  intro files
  induction files with
  | nil => rfl
  | cons hd tl ih =>
    rcases hd with ⟨a, d⟩
    by_cases hap : a = p
    · simp [eraseFile, hap, ih]
    · simp [eraseFile, lookupFile, hap, ih]

theorem lookupFile_setFile_self (p : Str) (d : Bytes) (fs : FS) :
    lookupFile p (setFile p d fs).files = some d := by
  simp [setFile, lookupFile]

theorem lookupFile_setFile_ne (p q : Str) (h : q ≠ p) (d : Bytes) (fs : FS) :
    lookupFile q (setFile p d fs).files = lookupFile q fs.files := by
  have : p ≠ q := fun hh => h hh.symm
  simp [setFile, lookupFile, this, lookupFile_eraseFile_ne p q h]

theorem lookupFile_removeFile_ne (p q : Str) (h : q ≠ p) (fs : FS) :
    lookupFile q (removeFile p fs).files = lookupFile q fs.files := by
  simp [removeFile, lookupFile_eraseFile_ne p q h]

theorem temp_ne_safe (sp : Str) : sp ++ ".temp".data ≠ sp := by
  intro h
  have := congrArg List.length h
  simp at this

/-! ## Outcome lemmas for the adapter calls -/

theorem existsA_ok (p : Str) (w : World) (b : Bool) (w1 : World)
    (h : existsA p w = (.ok b, w1)) : w1.fs = w.fs ∧ b = existsFS p w.fs := by
  rcases w with ⟨fs, sched⟩
  rcases sched with _ | ⟨_ | k, t⟩ <;> simp [existsA, popSchedule] at h <;> (try obtain ⟨h1, h2⟩ := h) <;> subst_vars <;> simp_all

theorem existsA_error (p : Str) (w : World) (e : Err) (w1 : World)
    (h : existsA p w = (.error e, w1)) : w1.fs = w.fs := by
  rcases w with ⟨fs, sched⟩
  rcases sched with _ | ⟨_ | k, t⟩ <;> simp [existsA, popSchedule] at h <;> (try obtain ⟨h1, h2⟩ := h) <;> subst_vars <;> simp_all

theorem writeA_ok (p : Str) (d : Bytes) (w : World) (u : Unit) (w1 : World)
    (h : writeA p d w = (.ok u, w1)) : w1.fs = setFile p d w.fs := by
  rcases w with ⟨fs, sched⟩
  rcases sched with _ | ⟨_ | k, t⟩ <;> simp [writeA, popSchedule] at h <;> (try obtain ⟨h1, h2⟩ := h) <;> subst_vars <;> simp_all

theorem writeA_error (p : Str) (d : Bytes) (w : World) (e : Err) (w1 : World)
    (h : writeA p d w = (.error e, w1)) : w1.fs = w.fs := by
  rcases w with ⟨fs, sched⟩
  rcases sched with _ | ⟨_ | k, t⟩ <;> simp [writeA, popSchedule] at h <;> (try obtain ⟨h1, h2⟩ := h) <;> subst_vars <;> simp_all

theorem removeA_fs (p : Str) (w : World) :
    (removeA p w).2.fs = w.fs ∨ (removeA p w).2.fs = removeFile p w.fs := by
  rcases w with ⟨fs, sched⟩
  rcases sched with _ | ⟨_ | k, t⟩ <;>
    by_cases hl : (lookupFile p fs.files).isSome <;>
      simp [removeA, popSchedule, hl]

theorem removeA_ok (p : Str) (w : World) (u : Unit) (w1 : World)
    (h : removeA p w = (.ok u, w1)) : w1.fs = removeFile p w.fs := by
  rcases w with ⟨fs, sched⟩
  rcases sched with _ | ⟨_ | k, t⟩ <;>
    by_cases hl : (lookupFile p fs.files).isSome <;>
      simp [removeA, popSchedule, hl] at h <;> (try obtain ⟨h1, h2⟩ := h) <;> subst_vars <;> simp_all

theorem removeA_error (p : Str) (w : World) (e : Err) (w1 : World)
    (h : removeA p w = (.error e, w1)) : w1.fs = w.fs := by
  rcases w with ⟨fs, sched⟩
  rcases sched with _ | ⟨_ | k, t⟩ <;>
    by_cases hl : (lookupFile p fs.files).isSome <;>
      simp [removeA, popSchedule, hl] at h <;> (try obtain ⟨h1, h2⟩ := h) <;> subst_vars <;> simp_all

theorem mkdirA_ok (p : Str) (w : World) (u : Unit) (w1 : World)
    (h : mkdirA p w = (.ok u, w1)) : w1.fs = addDir p w.fs := by
  rcases w with ⟨fs, sched⟩
  rcases sched with _ | ⟨_ | k, t⟩ <;> simp [mkdirA, popSchedule] at h <;> (try obtain ⟨h1, h2⟩ := h) <;> subst_vars <;> simp_all

theorem mkdirA_error (p : Str) (w : World) (e : Err) (w1 : World)
    (h : mkdirA p w = (.error e, w1)) : w1.fs = w.fs := by
  rcases w with ⟨fs, sched⟩
  rcases sched with _ | ⟨_ | k, t⟩ <;> simp [mkdirA, popSchedule] at h <;> (try obtain ⟨h1, h2⟩ := h) <;> subst_vars <;> simp_all

/-! ## Claim C3: traversal substrings are always rejected -/

/-- Claim C3: every candidate path containing the literal substring `../` or
`..\` anywhere is rejected by `isPathInVault`, and `validateAndCreatePath`
therefore throws its invalid-path error before any adapter call, so no
validated path is produced and no file or directory is created (the world is
returned untouched). -/
theorem traversal_rejected (p : Str)
    (h : isSubstr ("../".data) p = true ∨ isSubstr ("..\\".data) p = true) :
    isPathInVault p = false ∧
    ∀ w : World, validateAndCreatePath p w = (.error .invalidPath, w) := by
  have hguard : (isSubstr ("../".data) p || isSubstr ("..\\".data) p) = true := by
    rcases h with h | h <;> simp [h]
  have hv : isPathInVault p = false := by
    simp [isPathInVault, hguard]
  exact ⟨hv, fun w => by simp [validateAndCreatePath, hv]⟩

/-- Witness for C3, Scenario B of the spec: the candidate `../../etc/passwd`. -/
theorem traversal_rejected_witness :
    isSubstr ("../".data) ("../../etc/passwd".data) = true ∧
    isPathInVault ("../../etc/passwd".data) = false ∧
    validateAndCreatePath ("../../etc/passwd".data) emptyWorld =
      (.error .invalidPath, emptyWorld) :=
  ⟨by decide,
   (traversal_rejected ("../../etc/passwd".data) (Or.inl (by decide))).1,
   (traversal_rejected ("../../etc/passwd".data) (Or.inl (by decide))).2 emptyWorld⟩

/-! ## Claims C4 and C5: extractPages -/

theorem copyPage_ok_of_inbounds (doc : PDF) (i : Int)
    (h0 : 0 ≤ i) (hlt : i.toNat < doc.pages.length) :
    copyPage doc i = .ok (doc.pages.getD i.toNat 0) := by
  rw [copyPage, if_pos h0, List.getElem?_eq_getElem hlt, List.getD_eq_getElem doc.pages 0 hlt]

theorem copyPage_error_of_bad (doc : PDF) (i : Int)
    (h : ¬(0 ≤ i ∧ i.toNat < doc.pages.length)) :
    copyPage doc i = .error (.badIndex i) := by
  by_cases h0 : 0 ≤ i
  · have hge : doc.pages.length ≤ i.toNat := by
      rcases Nat.lt_or_ge i.toNat doc.pages.length with hlt | hge
      · exact absurd ⟨h0, hlt⟩ h
      · exact hge
    rw [copyPage, if_pos h0, List.getElem?_eq_none hge]
  · rw [copyPage, if_neg h0]

theorem copyLoop_ok (doc : PDF) :
    ∀ (idxs : List Int) (acc : List Nat),
      (∀ i ∈ idxs, 0 ≤ i ∧ i.toNat < doc.pages.length) →
      copyLoop doc idxs acc =
        .ok (acc ++ idxs.map (fun i => doc.pages.getD i.toNat 0)) := by
  intro idxs
  induction idxs with
  | nil => intro acc _; simp [copyLoop]
  | cons i rest ih =>
    intro acc h
    have hi := h i (by simp)
    have hrest : ∀ j ∈ rest, 0 ≤ j ∧ j.toNat < doc.pages.length :=
      fun j hj => h j (by simp [hj])
    have hcp := copyPage_ok_of_inbounds doc i hi.1 hi.2
    simp only [copyLoop, hcp]
    rw [ih (acc ++ [doc.pages.getD i.toNat 0]) hrest, List.map_cons, List.append_assoc]
    rfl
theorem copyLoop_error (doc : PDF) :
    ∀ (idxs : List Int) (acc : List Nat),
      (∃ i ∈ idxs, ¬(0 ≤ i ∧ i.toNat < doc.pages.length)) →
      (copyLoop doc idxs acc).isOk = false := by
  intro idxs
  induction idxs with
  | nil => intro acc h; simp at h
  | cons i rest ih =>
    intro acc h
    by_cases hbad : 0 ≤ i ∧ i.toNat < doc.pages.length
    · rcases h with ⟨j, hj, hjbad⟩
      have hjr : j ∈ rest := by
        rcases List.mem_cons.mp hj with rfl | hm
        · exact absurd hbad hjbad
        · exact hm
      have hcp := copyPage_ok_of_inbounds doc i hbad.1 hbad.2
      simp only [copyLoop, hcp]
      exact ih _ ⟨j, hjr, hjbad⟩
    · have hcp := copyPage_error_of_bad doc i hbad
      simp only [copyLoop, hcp]
      rfl

theorem mem_pageIndexes (s e : Int) (k : Nat) (hk : k < (e - s + 1).toNat) :
    ((k : Int) + s - 1) ∈ pageIndexes s e := by
  simp only [pageIndexes]
  exact List.mem_map.mpr ⟨k, List.mem_range.mpr hk, rfl⟩

theorem pageIndexes_shape (s e : Int) (i : Int) (hi : i ∈ pageIndexes s e) :
    ∃ k : Nat, k < (e - s + 1).toNat ∧ i = (k : Int) + s - 1 := by
  simp only [pageIndexes] at hi
  rcases List.mem_map.mp hi with ⟨k, hk, rfl⟩
  exact ⟨k, List.mem_range.mp hk, rfl⟩

theorem pageIndexes_map_slice (l : List Nat) (s e : Int)
    (h1 : 1 ≤ s) (h2 : s ≤ e) (h3 : e ≤ (l.length : Int)) :
    (pageIndexes s e).map (fun i => l.getD i.toNat 0) =
      (l.drop (s - 1).toNat).take (e - s + 1).toNat := by
  rw [pageIndexes, List.map_map]
  apply List.ext_getElem
  · rw [List.length_map, List.length_range, List.length_take, List.length_drop]
    omega
  · intro j hj1 hj2
    rw [List.length_map, List.length_range] at hj1
    have hlt2 : (s - 1).toNat + j < l.length := by omega
    have hfin : ((j : Int) + s - 1).toNat = (s - 1).toNat + j := by omega
    calc ((List.range (e - s + 1).toNat).map
            ((fun i => l.getD i.toNat 0) ∘ (fun k : Nat => (k : Int) + s - 1)))[j]
        = l.getD ((j : Int) + s - 1).toNat 0 := by
          simp only [List.getElem_map, List.getElem_range, Function.comp_apply]
      _ = l.getD ((s - 1).toNat + j) 0 := by rw [hfin]
      _ = l[(s - 1).toNat + j] := List.getD_eq_getElem l 0 hlt2
      _ = ((l.drop (s - 1).toNat).take (e - s + 1).toNat)[j] := by
          rw [List.getElem_take, List.getElem_drop]

theorem extractPages_range (doc : PDF) (s e : Int)
    (h1 : 1 ≤ s) (h2 : s ≤ e) (h3 : e ≤ (doc.pages.length : Int)) :
    ∃ d : PDF,
      extractPages doc s e = .ok d ∧
      d.pages = (doc.pages.drop (s - 1).toNat).take (e - s + 1).toNat ∧
      d.pages.length = (e - s + 1).toNat := by
  have hinb : ∀ i ∈ pageIndexes s e, 0 ≤ i ∧ i.toNat < doc.pages.length := by
    intro i hi
    rcases pageIndexes_shape s e i hi with ⟨k, hk, rfl⟩
    constructor
    · omega
    · omega
  have hcl := copyLoop_ok doc (pageIndexes s e) [] hinb
  have hslice := pageIndexes_map_slice doc.pages s e h1 h2 h3
  refine ⟨⟨(pageIndexes s e).map (fun i => doc.pages.getD i.toNat 0)⟩, ?_, ?_, ?_⟩
  · rw [extractPages, hcl, List.nil_append]
  · exact hslice
  · rw [hslice, List.length_take, List.length_drop]
    omega

/-- Witness for C4, Scenario A of the spec: a ten-page source, extracting
pages 3..5 yields the three pages 3, 4, 5 in order. -/
theorem extractPages_range_witness :
    (1 : Int) ≤ 3 ∧ (3 : Int) ≤ 5 ∧ (5 : Int) ≤ (demoDoc10.pages.length : Int) ∧
    (∃ d : PDF,
      extractPages demoDoc10 3 5 = .ok d ∧
      d.pages = (demoDoc10.pages.drop ((3 : Int) - 1).toNat).take ((5 : Int) - 3 + 1).toNat ∧
      d.pages.length = ((5 : Int) - 3 + 1).toNat) :=
  ⟨by decide, by decide, by decide,
   extractPages_range demoDoc10 3 5 (by decide) (by decide) (by decide)⟩

/-- Claim C5 counterexample: with a three-page document and `start = 5 >
end = 3`, extractPages does not fail with a range error — it returns a
document (the empty one), contradicting the claim that such a call never
returns a document. -/
theorem extractPages_start_gt_end_returns_doc :
    extractPages demoDoc 5 3 = .ok ⟨[]⟩ := rfl

/-- Claim C5, amended: a call with `start ≤ end` and (`start < 1` or
`end > N`) fails (with pdf-lib's bad-page-index error rather than a
dedicated range error naming the failing bound) and performs no mutation,
but a call with `start > end` silently returns an empty document instead of
failing; all three bound violations are instead rejected up front by the
modal's `validateInput`, which returns a message (never `null`) so the
pipeline never invokes extractPages on them. -/
theorem extractPages_invalid_bounds (doc : PDF) (s e : Int) :
    (s ≤ e → (s < 1 ∨ (doc.pages.length : Int) < e) →
      (extractPages doc s e).isOk = false) ∧
    (e < s → extractPages doc s e = .ok ⟨[]⟩) ∧
    (∀ pdfPath name, (e < s ∨ s < 1 ∨ (doc.pages.length : Int) < e) →
      validateInput pdfPath (some doc) s e name ≠ none) := by
  refine ⟨?_, ?_, ?_⟩
  · intro hse hbad
    have hn : 0 < (e - s + 1).toNat := by omega
    have hex : ∃ i ∈ pageIndexes s e, ¬(0 ≤ i ∧ i.toNat < doc.pages.length) := by
      rcases hbad with hs1 | hend
      · refine ⟨_, mem_pageIndexes s e 0 hn, ?_⟩
        intro hc
        omega
      · refine ⟨_, mem_pageIndexes s e ((e - s + 1).toNat - 1) (by omega), ?_⟩
        intro hc
        omega
    have hko := copyLoop_error doc (pageIndexes s e) [] hex
    rcases hres : copyLoop doc (pageIndexes s e) [] with v | err
    · simp only [extractPages, hres]
      rfl
    · rw [hres] at hko
      exact Bool.noConfusion hko
  · intro hlt
    have hz : (e - s + 1).toNat = 0 := by omega
    simp [extractPages, pageIndexes, hz, List.range_zero, copyLoop]
  · intro pdfPath name hbad
    by_cases hp : pdfPath = []
    · simp [validateInput, hp]
    · by_cases hz : s = 0 ∨ e = 0 ∨ s > e
      · simp [validateInput, hp, hz]
      · have hrange : s < 1 ∨ e > (doc.pages.length : Int) := by
          rcases hbad with h | h | h
          · omega
          · left; exact h
          · right; exact h
        simp [validateInput, hp, hz, hrange]

/-- Witness for the amended C5: `start = 0` makes extractPages fail and
validateInput reject, while `start = 5 > end = 3` returns the empty
document. -/
theorem extractPages_invalid_bounds_witness :
    (extractPages demoDoc 0 2).isOk = false ∧
    extractPages demoDoc 5 3 = .ok ⟨[]⟩ ∧
    validateInput ("a.pdf".data) (some demoDoc) 0 2 ("out".data) ≠ none :=
  ⟨(extractPages_invalid_bounds demoDoc 0 2).1 (by decide) (Or.inl (by decide)),
   (extractPages_invalid_bounds demoDoc 5 3).2.1 (by decide),
   (extractPages_invalid_bounds demoDoc 0 2).2.2 ("a.pdf".data) ("out".data)
     (Or.inr (Or.inl (by decide)))⟩

/-! ## Claim C6: the mkdir race in ensureDirectoryExists -/

/-- Claim C6 counterexample: in `raceWorld` the existence check reports the
directory `a` absent and the mkdir call that follows fails with an
already-exists error (another process created it in between);
ensureDirectoryExists propagates the error instead of treating it as
success. -/
theorem ensureDirectoryExists_race_error :
    ensureDirectoryExists ("a".data) raceWorld =
      (.error (.adapter .alreadyExists), ⟨⟨[], []⟩, []⟩) := rfl

theorem ensureDirLoop_all_exist (fs : FS) :
    ∀ (parts : List Str) (cp : Str) (sched : List (Option IOKind)),
      allPrefixesExist fs cp parts = true →
      ensureDirLoop parts cp ⟨fs, List.replicate parts.length none ++ sched⟩ =
        (.ok (), ⟨fs, sched⟩) := by
  intro parts
  induction parts with
  | nil => intro cp sched _; rfl
  | cons part rest ih =>
    intro cp sched h
    simp only [allPrefixesExist, Bool.and_eq_true] at h
    have hx : existsA (extendPath cp part)
        ⟨fs, List.replicate (part :: rest).length none ++ sched⟩
        = (.ok true, ⟨fs, List.replicate rest.length none ++ sched⟩) := by
      simp [existsA, popSchedule, List.replicate_succ, h.1]
    rw [ensureDirLoop]
    simp only [hx]
    exact ih (extendPath cp part) sched h.2

theorem ensureDirLoop_race (fs : FS) (k : IOKind) :
    ∀ (parts1 : List Str) (part : Str) (parts2 : List Str) (cp : Str)
      (sched : List (Option IOKind)),
      allPrefixesExist fs cp parts1 = true →
      existsFS (extendPath (accumPath cp parts1) part) fs = false →
      (ensureDirLoop (parts1 ++ part :: parts2) cp
        ⟨fs, List.replicate parts1.length none ++ none :: some k :: sched⟩).1 =
        .error (.adapter k) := by
  intro parts1
  induction parts1 with
  | nil =>
    intro part parts2 cp sched _ habs
    have habs2 : existsFS (extendPath cp part) fs = false := habs
    have hx : existsA (extendPath cp part) ⟨fs, none :: some k :: sched⟩
        = (.ok false, ⟨fs, some k :: sched⟩) := by
      simp [existsA, popSchedule, habs2]
    have hmk : mkdirA (extendPath cp part) ⟨fs, some k :: sched⟩
        = (.error (.adapter k), ⟨fs, sched⟩) := rfl
    rw [List.nil_append, ensureDirLoop]
    simp only [List.replicate, List.nil_append, hx, hmk]
  | cons p ps ih =>
    intro part parts2 cp sched h habs
    simp only [allPrefixesExist, Bool.and_eq_true] at h
    have hx : existsA (extendPath cp p)
        ⟨fs, List.replicate (p :: ps).length none ++ none :: some k :: sched⟩
        = (.ok true, ⟨fs, List.replicate ps.length none ++ none :: some k :: sched⟩) := by
      simp [existsA, popSchedule, List.replicate_succ, h.1]
    rw [List.cons_append, ensureDirLoop]
    simp only [hx]
    exact ih part parts2 (extendPath cp p) sched h.2 habs

/-- Claim C6, amended: for every directory-segment sequence, the benign race
is not tolerated — whenever, at any position of the walk (all earlier
accumulated prefixes existing and consuming one successful existence check
each), the existence check reports the next prefix absent and the mkdir call
that follows fails (in particular with an already-exists error raised by a
concurrent creation), ensureDirectoryExists propagates the adapter error to
its caller rather than treating it as success.  Conversely, mkdir is skipped
exactly when the existence check reports a prefix present: when every
accumulated prefix exists, the walk succeeds, performs no mkdir call
(consuming exactly one schedule entry per segment), and leaves the
filesystem unchanged. -/
theorem ensureDirectoryExists_race (directory : Str) (parts1 : List Str) (part : Str)
    (parts2 : List Str) (fs : FS) (k : IOKind) (sched : List (Option IOKind))
    (hne : directory ≠ [])
    (hsplit : (directory.splitOn '/').filter (fun q => decide (0 < q.length)) =
      parts1 ++ part :: parts2) :
    (allPrefixesExist fs [] parts1 = true →
      existsFS (extendPath (accumPath [] parts1) part) fs = false →
      (ensureDirectoryExists directory
        ⟨fs, List.replicate parts1.length none ++ none :: some k :: sched⟩).1 =
        .error (.adapter k)) ∧
    (allPrefixesExist fs [] (parts1 ++ part :: parts2) = true →
      ensureDirectoryExists directory
        ⟨fs, List.replicate (parts1 ++ part :: parts2).length none ++ sched⟩ =
        (.ok (), ⟨fs, sched⟩)) := by
  constructor
  · intro hpre habs
    rw [ensureDirectoryExists, if_neg hne, hsplit]
    exact ensureDirLoop_race fs k parts1 part parts2 [] sched hpre habs
  · intro hall
    rw [ensureDirectoryExists, if_neg hne, hsplit]
    exact ensureDirLoop_all_exist fs (parts1 ++ part :: parts2) [] sched hall

/-- Witness for the amended C6: the three-segment directory `a/b/c`.  With
only `a` existing, the race injected at the mkdir of `a/b` surfaces as an
already-exists adapter error; with `a`, `a/b` and `a/b/c` all existing, the
walk succeeds without touching the filesystem. -/
theorem ensureDirectoryExists_race_witness :
    (("a/b/c".data ≠ ([] : Str)) ∧
      (("a/b/c".data.splitOn '/').filter (fun q => decide (0 < q.length)) =
        ["a".data] ++ "b".data :: ["c".data]) ∧
      allPrefixesExist ⟨[], ["a".data]⟩ [] ["a".data] = true ∧
      existsFS (extendPath (accumPath [] ["a".data]) ("b".data)) ⟨[], ["a".data]⟩ = false ∧
      (ensureDirectoryExists ("a/b/c".data)
        ⟨⟨[], ["a".data]⟩, [none, none, some .alreadyExists]⟩).1 =
        .error (.adapter .alreadyExists)) ∧
    (allPrefixesExist ⟨[], ["a".data, "a/b".data, "a/b/c".data]⟩ []
        (["a".data] ++ "b".data :: ["c".data]) = true ∧
      ensureDirectoryExists ("a/b/c".data)
        ⟨⟨[], ["a".data, "a/b".data, "a/b/c".data]⟩, [none, none, none]⟩ =
        (.ok (), ⟨⟨[], ["a".data, "a/b".data, "a/b/c".data]⟩, []⟩)) :=
  ⟨⟨by decide, by decide, by decide, by decide,
    (ensureDirectoryExists_race ("a/b/c".data) ["a".data] ("b".data) ["c".data]
      ⟨[], ["a".data]⟩ .alreadyExists [] (by decide) (by decide)).1
      (by decide) (by decide)⟩,
   ⟨by decide,
    (ensureDirectoryExists_race ("a/b/c".data) ["a".data] ("b".data) ["c".data]
      ⟨[], ["a".data, "a/b".data, "a/b/c".data]⟩ .alreadyExists []
      (by decide) (by decide)).2 (by decide)⟩⟩

/-! ## Claim C7: the conflict gate of ensureSafeOutput -/

theorem safePathOf_ne_outputDirectory (p : Str) (hd : outputDirectory p ≠ []) :
    safePathOf p ≠ outputDirectory p := by
  intro h
  rw [safePathOf, if_neg hd] at h
  have hlen := congrArg List.length h
  simp at hlen

theorem validateAndCreatePath_ok (p : Str) (w : World) (sp : Str) (w1 : World)
    (h : validateAndCreatePath p w = (.ok sp, w1)) :
    sp = safePathOf p ∧ isPathInVault p = true ∧
    w1.fs.files = w.fs.files ∧
    existsFS (safePathOf p) w1.fs = existsFS (safePathOf p) w.fs := by
  by_cases hv : isPathInVault p
  · rw [validateAndCreatePath, if_pos hv] at h
    by_cases hd : outputDirectory p = []
    · rw [if_pos hd] at h
      simp only [Prod.mk.injEq, Except.ok.injEq] at h
      obtain ⟨hsp, hw⟩ := h
      subst hw
      exact ⟨hsp.symm, hv, rfl, rfl⟩
    · rw [if_neg hd] at h
      split at h
      · rename_i wx hex
        simp only [Prod.mk.injEq, Except.ok.injEq] at h
        obtain ⟨hsp, hw⟩ := h
        subst hw
        have hwx := (existsA_ok _ _ _ _ hex).1
        exact ⟨hsp.symm, hv, by rw [hwx], by rw [hwx]⟩
      · rename_i wx hex
        split at h
        · rename_i u wy hmk
          simp only [Prod.mk.injEq, Except.ok.injEq] at h
          obtain ⟨hsp, hw⟩ := h
          subst hw
          have hwx := (existsA_ok _ _ _ _ hex).1
          have hwy := mkdirA_ok _ _ u _ hmk
          refine ⟨hsp.symm, hv, ?_, ?_⟩
          · rw [hwy, addDir, hwx]
          · rw [hwy]
            have hne2 : outputDirectory p ≠ safePathOf p :=
              fun hh => safePathOf_ne_outputDirectory p hd hh.symm
            simp only [existsFS, addDir, containsStr, if_neg hne2]
            rw [hwx]
        · simp at h
      · simp at h
  · rw [validateAndCreatePath, if_neg hv] at h
    simp at h

theorem validateAndCreatePath_error (p : Str) (w : World) (e : Err) (w1 : World)
    (h : validateAndCreatePath p w = (.error e, w1)) : w1.fs = w.fs := by
  by_cases hv : isPathInVault p
  · rw [validateAndCreatePath, if_pos hv] at h
    by_cases hd : outputDirectory p = []
    · rw [if_pos hd] at h
      simp at h
    · rw [if_neg hd] at h
      split at h
      · simp at h
      · rename_i wx hex
        split at h
        · simp at h
        · rename_i e2 wy hmk
          simp only [Prod.mk.injEq, Except.error.injEq] at h
          rw [← h.2, mkdirA_error _ _ _ _ hmk, (existsA_ok _ _ _ _ hex).1]
      · rename_i e2 wx hex
        simp only [Prod.mk.injEq, Except.error.injEq] at h
        rw [← h.2]
        exact existsA_error _ _ _ _ hex
  · rw [validateAndCreatePath, if_neg hv] at h
    simp only [Prod.mk.injEq, Except.error.injEq] at h
    rw [← h.2]

/-- Claim C7 counterexample: on a validated path where no file exists,
ensureSafeOutput returns `true` (the claim says the conflict check returns
`false` there); and when a file does exist, it returns the user's decision —
here `false` — not `true`. -/
theorem ensureSafeOutput_conflict_values :
    existsFS (safePathOf ("out.pdf".data)) emptyWorld.fs = false ∧
    (ensureSafeOutput false ("out.pdf".data) emptyWorld).1 = .ok true ∧
    existsFS (safePathOf ("out.pdf".data)) existingFileWorld.fs = true ∧
    (ensureSafeOutput false ("out.pdf".data) existingFileWorld).1 = .ok false :=
  ⟨rfl, rfl, rfl, rfl⟩

/-- Claim C7, amended: ensureSafeOutput is a proceed-gate, not a conflict
predicate — whenever it returns a boolean, that boolean is `true` when no
file exists at the validated final path (safe to proceed), and is the
caller's overwrite/cancel decision when a file already exists there. -/
theorem ensureSafeOutput_gate (decision : Bool) (p : Str) (w : World) (b : Bool) (w2 : World)
    (h : ensureSafeOutput decision p w = (.ok b, w2)) :
    b = (if existsFS (safePathOf p) w.fs = true then decision else true) := by
  rw [ensureSafeOutput] at h
  split at h
  · simp at h
  · rename_i sp w1 hv
    obtain ⟨hsp, hvp, hfiles, hex⟩ := validateAndCreatePath_ok p w sp w1 hv
    subst hsp
    split at h
    · simp at h
    · rename_i wz hx
      have hgr : existsFS (safePathOf p) w.fs = true := by
        rw [← hex, ← (existsA_ok _ _ _ _ hx).2]
      simp only [Prod.mk.injEq, Except.ok.injEq] at h
      rw [← h.1, hgr, if_pos rfl]
    · rename_i wz hx
      have hgr : existsFS (safePathOf p) w.fs = false := by
        rw [← hex, ← (existsA_ok _ _ _ _ hx).2]
      simp only [Prod.mk.injEq, Except.ok.injEq] at h
      rw [← h.1, hgr]
      simp

/-- Witness for the amended C7: a pre-existing `out.pdf` and the decision
`false` (cancel) — the gate returns `false`. -/
theorem ensureSafeOutput_gate_witness :
    ensureSafeOutput false ("out.pdf".data) existingFileWorld =
      (.ok false, existingFileWorld) ∧
    false = (if existsFS (safePathOf ("out.pdf".data)) existingFileWorld.fs = true
             then false else true) :=
  ⟨rfl, ensureSafeOutput_gate false ("out.pdf".data) existingFileWorld false
    existingFileWorld rfl⟩

/-! ## Claims C1 and C2: the savePDF persistence protocol -/

theorem savePDFFinalWrite_ok (bytes : Bytes) (sp tp : Str) (w w1 : World) (u : Unit)
    (hne : tp ≠ sp)
    (h : savePDFFinalWrite bytes sp tp w = (.ok u, w1)) :
    lookupFile sp w1.fs.files = some bytes := by
  rw [savePDFFinalWrite] at h
  split at h
  · simp at h
  · rename_i uu wx hw
    split at h
    rename_i r w2 hrm
    simp only [Prod.mk.injEq] at h
    rw [← h.2]
    have hfs := removeA_fs tp wx
    rw [hrm] at hfs
    have hwx := writeA_ok _ _ _ uu _ hw
    have hspwx : lookupFile sp wx.fs.files = some bytes := by
      rw [hwx]
      exact lookupFile_setFile_self sp bytes w.fs
    rcases hfs with hfs | hfs
    · rw [hfs]
      exact hspwx
    · rw [hfs, lookupFile_removeFile_ne tp sp (fun hh => hne hh.symm)]
      exact hspwx

theorem savePDFFinalWrite_error (bytes : Bytes) (sp tp : Str) (w : World) (e : Err)
    (w1 : World) (h : savePDFFinalWrite bytes sp tp w = (.error e, w1)) :
    lookupFile sp w1.fs.files = lookupFile sp w.fs.files := by
  rw [savePDFFinalWrite] at h
  split at h
  · rename_i e2 wx hw
    simp only [Prod.mk.injEq, Except.error.injEq] at h
    rw [← h.2, writeA_error _ _ _ _ _ hw]
  · split at h
    simp at h

theorem savePDFBody_ok (doc : PDF) (sp tp : Str) (w w2 : World) (u : Unit)
    (hne : tp ≠ sp)
    (h : savePDFBody doc sp tp w = (.ok u, w2)) :
    lookupFile sp w2.fs.files = some (serialize doc) := by
  simp only [savePDFBody] at h
  split at h
  · simp at h
  · split at h
    · simp at h
    · split at h
      · simp at h
      · exact savePDFFinalWrite_ok _ _ _ _ _ u hne h
    · exact savePDFFinalWrite_ok _ _ _ _ _ u hne h

theorem savePDFBody_error (doc : PDF) (sp tp : Str) (w : World) (e : Err) (w2 : World)
    (hne : tp ≠ sp)
    (h : savePDFBody doc sp tp w = (.error e, w2)) :
    lookupFile sp w2.fs.files = lookupFile sp w.fs.files ∨
    lookupFile sp w2.fs.files = none := by
  simp only [savePDFBody] at h
  split at h
  · rename_i e2 wx hw
    simp only [Prod.mk.injEq, Except.error.injEq] at h
    rw [← h.2, writeA_error _ _ _ _ _ hw]
    left
    rfl
  · rename_i uu wx hw
    have hwx := writeA_ok _ _ _ uu _ hw
    have hspwx : lookupFile sp wx.fs.files = lookupFile sp w.fs.files := by
      rw [hwx]
      exact lookupFile_setFile_ne tp sp (fun hh => hne hh.symm) (serialize doc) w.fs
    split at h
    · rename_i e2 wy hex
      simp only [Prod.mk.injEq, Except.error.injEq] at h
      rw [← h.2, existsA_error _ _ _ _ hex]
      left
      exact hspwx
    · rename_i wy hex
      have hwy := (existsA_ok _ _ _ _ hex).1
      split at h
      · rename_i e2 wz hrm
        simp only [Prod.mk.injEq, Except.error.injEq] at h
        rw [← h.2, removeA_error _ _ _ _ hrm, hwy]
        left
        exact hspwx
      · rename_i uu2 wz hrm
        have hwz := removeA_ok _ _ uu2 _ hrm
        right
        rw [savePDFFinalWrite_error _ _ _ _ _ _ h, hwz, removeFile,
          lookupFile_eraseFile_self]
    · rename_i wy hex
      have hwy := (existsA_ok _ _ _ _ hex).1
      left
      rw [savePDFFinalWrite_error _ _ _ _ _ _ h, hwy]
      exact hspwx

/-- Claim C2: when savePDF reports success, a file exists at the validated
final path and holds exactly the serialized bytes of the document, so
reading it back through the raw adapter yields bytes identical to
`serialize doc`. -/
theorem savePDF_success_roundtrip (doc : PDF) (p : Str) (w w2 : World) (u : Unit)
    (h : savePDF doc p w = (.ok u, w2)) :
    lookupFile (safePathOf p) w2.fs.files = some (serialize doc) ∧
    existsFS (safePathOf p) w2.fs = true ∧
    (readA (safePathOf p) ⟨w2.fs, []⟩).1 = .ok (serialize doc) := by
  simp only [savePDF] at h
  split at h
  · simp at h
  · rename_i sp w1 hv
    obtain ⟨hsp, hvp, hfiles, hex⟩ := validateAndCreatePath_ok p w sp w1 hv
    subst hsp
    split at h
    · simp at h
    · rename_i uu wx hbody
      have hlk := savePDFBody_ok doc (safePathOf p) _ w1 wx uu
        (temp_ne_safe (safePathOf p)) hbody
      split at h
      · rename_i wy hchk
        simp only [Prod.mk.injEq] at h
        have hwy := (existsA_ok _ _ _ _ hchk).1
        have hfin : lookupFile (safePathOf p) w2.fs.files = some (serialize doc) := by
          rw [← h.2, hwy]
          exact hlk
        refine ⟨hfin, ?_, ?_⟩
        · simp [existsFS, hfin]
        · simp [readA, popSchedule, hfin]
      · simp at h
      · simp at h

/-- Witness for C2: a successful savePDF run over an empty vault, read back
through the raw adapter. -/
theorem savePDF_success_roundtrip_witness :
    savePDF demoDoc ("out.pdf".data) emptyWorld =
      (.ok (), ⟨⟨[("out.pdf".data, [10, 20, 30])], []⟩, []⟩) ∧
    (lookupFile (safePathOf ("out.pdf".data))
        (⟨⟨[("out.pdf".data, [10, 20, 30])], []⟩, []⟩ : World).fs.files =
      some (serialize demoDoc) ∧
    existsFS (safePathOf ("out.pdf".data))
        (⟨⟨[("out.pdf".data, [10, 20, 30])], []⟩, []⟩ : World).fs = true ∧
    (readA (safePathOf ("out.pdf".data))
        ⟨(⟨⟨[("out.pdf".data, [10, 20, 30])], []⟩, []⟩ : World).fs, []⟩).1 =
      .ok (serialize demoDoc)) :=
  ⟨rfl, savePDF_success_roundtrip demoDoc ("out.pdf".data) emptyWorld
    ⟨⟨[("out.pdf".data, [10, 20, 30])], []⟩, []⟩ () rfl⟩

/-- Claim C1 counterexample: `out.pdf` pre-exists with bytes `[7, 7]`; the
final write fails with a simulated disk-full error; savePDF reports failure,
but the file at the final path has been removed (the code deletes the
pre-existing file before the final write), so the path is neither untouched
nor byte-identical to its pre-operation content. -/
theorem savePDF_diskFull_removes_preexisting :
    safePathOf ("out.pdf".data) = "out.pdf".data ∧
    lookupFile ("out.pdf".data) diskFullWorld.fs.files = some [7, 7] ∧
    (savePDF demoDoc ("out.pdf".data) diskFullWorld).1 =
      .error (.failedToSave (.adapter .diskFull)) ∧
    lookupFile ("out.pdf".data)
      (savePDF demoDoc ("out.pdf".data) diskFullWorld).2.fs.files = none :=
  ⟨rfl, rfl, rfl, rfl⟩

/-- Claim C1, amended: when savePDF reports failure, the file at the
validated final path is never truncated or half-written — it is left either
byte-identical to its pre-operation state, or absent, or holding the complete
serialized buffer; in particular, because the code removes a pre-existing
file at the final path before the final write, a disk-full failure during
the final write leaves the path absent even when it pre-existed (it is not
restored and the temp copy is deleted during cleanup). -/
theorem savePDF_failure_states (doc : PDF) (p : Str) (w : World) (e : Err) (w2 : World)
    (h : savePDF doc p w = (.error e, w2)) :
    lookupFile (safePathOf p) w2.fs.files = lookupFile (safePathOf p) w.fs.files ∨
    lookupFile (safePathOf p) w2.fs.files = none ∨
    lookupFile (safePathOf p) w2.fs.files = some (serialize doc) := by
  simp only [savePDF] at h
  split at h
  · rename_i e2 w1 hv
    simp only [Prod.mk.injEq, Except.error.injEq] at h
    rw [← h.2, validateAndCreatePath_error p w e2 w1 hv]
    left
    rfl
  · rename_i sp w1 hv
    obtain ⟨hsp, hvp, hfiles, hex⟩ := validateAndCreatePath_ok p w sp w1 hv
    subst hsp
    have hlkw1 : lookupFile (safePathOf p) w1.fs.files =
        lookupFile (safePathOf p) w.fs.files := by rw [hfiles]
    split at h
    · rename_i e2 wx hbody
      have hstates := savePDFBody_error doc (safePathOf p) _ w1 e2 wx
        (temp_ne_safe (safePathOf p)) hbody
      simp only [Prod.mk.injEq, Except.error.injEq] at h
      have hwy : lookupFile (safePathOf p)
          (removeA (safePathOf p ++ ".temp".data) wx).2.fs.files =
          lookupFile (safePathOf p) wx.fs.files := by
        have hfs := removeA_fs (safePathOf p ++ ".temp".data) wx
        rcases hfs with hfs | hfs
        · rw [hfs]
        · rw [hfs, lookupFile_removeFile_ne _ _
            (fun hh => temp_ne_safe (safePathOf p) hh.symm)]
      rw [← h.2, hwy]
      rcases hstates with hs | hs
      · left
        rw [hs, hlkw1]
      · right
        left
        exact hs
    · rename_i uu wx hbody
      have hlk := savePDFBody_ok doc (safePathOf p) _ w1 wx uu
        (temp_ne_safe (safePathOf p)) hbody
      split at h
      · simp at h
      · rename_i wy hchk
        simp only [Prod.mk.injEq, Except.error.injEq] at h
        right
        right
        rw [← h.2, (existsA_ok _ _ _ _ hchk).1]
        exact hlk
      · rename_i e2 wy hchk
        simp only [Prod.mk.injEq, Except.error.injEq] at h
        right
        right
        rw [← h.2, existsA_error _ _ _ _ hchk]
        exact hlk

/-- Witness for the amended C1: the disk-full scenario — the reported
failure leaves the final path absent (the middle disjunct). -/
theorem savePDF_failure_states_witness :
    savePDF demoDoc ("out.pdf".data) diskFullWorld =
      (.error (.failedToSave (.adapter .diskFull)), ⟨⟨[], []⟩, []⟩) ∧
    (lookupFile (safePathOf ("out.pdf".data)) (⟨⟨[], []⟩, []⟩ : World).fs.files =
        lookupFile (safePathOf ("out.pdf".data)) diskFullWorld.fs.files ∨
      lookupFile (safePathOf ("out.pdf".data)) (⟨⟨[], []⟩, []⟩ : World).fs.files = none ∨
      lookupFile (safePathOf ("out.pdf".data)) (⟨⟨[], []⟩, []⟩ : World).fs.files =
        some (serialize demoDoc)) :=
  ⟨rfl, savePDF_failure_states demoDoc ("out.pdf".data) diskFullWorld
    (.failedToSave (.adapter .diskFull)) ⟨⟨[], []⟩, []⟩ rfl⟩

/-! ## Claims C8, C9 and C10: the sanitization pipeline -/

theorem normalAux_of_flag (p : Char → Bool) (r : Char) :
    ∀ (l : Str) (b : Bool), NormalAux p r b l → NormalAux p r false l := by
  intro l b h
  cases l with
  | nil => trivial
  | cons c cs =>
    simp only [NormalAux] at h ⊢
    by_cases hc : p c = true
    · rw [if_pos hc] at h ⊢
      exact ⟨h.1, by trivial, h.2.2⟩
    · rw [if_neg hc] at h ⊢
      exact h

theorem normalAux_tail (p : Char → Bool) (r : Char) (c : Char) (cs : Str) (b : Bool)
    (h : NormalAux p r b (c :: cs)) : NormalAux p r false cs := by
  simp only [NormalAux] at h
  by_cases hc : p c = true
  · rw [if_pos hc] at h
    exact normalAux_of_flag p r cs true h.2.2
  · rw [if_neg hc] at h
    exact h

theorem collapseAux_eq_self (p : Char → Bool) (r : Char) :
    ∀ (l : Str) (b : Bool), NormalAux p r b l → collapseAux p r b l = l := by
  intro l
  induction l with
  | nil => intro b _; rfl
  | cons c cs ih =>
    intro b h
    simp only [NormalAux] at h
    by_cases hc : p c = true
    · rw [if_pos hc] at h
      obtain ⟨hcr, hb, hrest⟩ := h
      subst hb
      simp only [collapseAux, hc, if_true, Bool.false_eq_true, if_false]
      rw [ih true hrest, hcr]
    · rw [if_neg hc] at h
      simp only [collapseAux, hc, Bool.false_eq_true, if_false]
      rw [ih false h]

theorem normalAux_collapseAux (p : Char → Bool) (r : Char) (hr : p r = true) :
    ∀ (l : Str) (b : Bool), NormalAux p r b (collapseAux p r b l) := by
  intro l
  induction l with
  | nil => intro b; trivial
  | cons c cs ih =>
    intro b
    by_cases hc : p c = true
    · cases b with
      | true =>
        simp only [collapseAux, hc, if_true]
        exact ih true
      | false =>
        simp only [collapseAux, hc, if_true, Bool.false_eq_true, if_false]
        simp only [NormalAux, hr, if_true]
        exact ⟨by trivial, by trivial, ih true⟩
    · simp only [collapseAux, hc, Bool.false_eq_true, if_false]
      simp only [NormalAux, hc, Bool.false_eq_true, if_false]
      exact ih false

theorem normalAux_collapse_other (p q : Char → Bool) (r2 s : Char)
    (hqr : q r2 = false) (hdisj : ∀ c, p c = true → q c = false) :
    ∀ (l : Str) (fl b : Bool), (fl = true → b = false) →
      NormalAux q s b l → NormalAux q s b (collapseAux p r2 fl l) := by
  intro l
  induction l with
  | nil => intro fl b _ _; cases fl <;> trivial
  | cons c cs ih =>
    intro fl b hfb h
    by_cases hc : p c = true
    · have hqc : q c = false := hdisj c hc
      have hqc2 : ¬(q c = true) := by simp [hqc]
      have htl : NormalAux q s false cs := by
        simp only [NormalAux, if_neg hqc2] at h
        exact h
      cases fl with
      | true =>
        have hb : b = false := hfb rfl
        subst hb
        simp only [collapseAux, hc, if_true]
        exact ih true false (fun _ => rfl) htl
      | false =>
        simp only [collapseAux, hc, if_true, Bool.false_eq_true, if_false]
        have hqr2 : ¬(q r2 = true) := by simp [hqr]
        cases b with
        | true =>
          simp only [NormalAux, if_neg hqr2]
          exact ih true false (fun _ => rfl) htl
        | false =>
          simp only [NormalAux, if_neg hqr2]
          exact ih true false (fun _ => rfl) htl

    · simp only [collapseAux, hc, Bool.false_eq_true, if_false]
      simp only [NormalAux] at h ⊢
      by_cases hqc : q c = true
      · rw [if_pos hqc] at h ⊢
        exact ⟨h.1, h.2.1, ih false true (by intro hh; exact absurd hh (by simp)) h.2.2⟩
      · rw [if_neg hqc] at h ⊢
        exact ih false false (by intro hh; exact absurd hh (by simp)) h

theorem normalAux_append_left (q : Char → Bool) (s : Char) :
    ∀ (l1 : Str) (l2 : Str) (b : Bool),
      NormalAux q s b (l1 ++ l2) → NormalAux q s b l1 := by
  intro l1
  induction l1 with
  | nil => intro l2 b _; trivial
  | cons c cs ih =>
    intro l2 b h
    simp only [List.cons_append, NormalAux] at h ⊢
    by_cases hc : q c = true
    · rw [if_pos hc] at h ⊢
      exact ⟨h.1, h.2.1, ih l2 true h.2.2⟩
    · rw [if_neg hc] at h ⊢
      exact ih l2 false h

theorem normalAux_dropWhile (q : Char → Bool) (s : Char) (t : Char → Bool) :
    ∀ (l : Str) (b : Bool),
      NormalAux q s b l → NormalAux q s false (l.dropWhile t) := by
  intro l
  induction l with
  | nil => intro b _; trivial
  | cons c cs ih =>
    intro b h
    by_cases ht : t c = true
    · rw [List.dropWhile_cons_of_pos ht]
      exact ih false (normalAux_tail q s c cs b h)
    · rw [List.dropWhile_cons_of_neg (by simp [ht])]
      exact normalAux_of_flag q s (c :: cs) b h

theorem dropTrailing_append (t : Char → Bool) (l : Str) :
    dropTrailing t l ++ (l.reverse.takeWhile t).reverse = l := by
  have h := List.takeWhile_append_dropWhile t l.reverse
  calc dropTrailing t l ++ (l.reverse.takeWhile t).reverse
      = ((l.reverse.takeWhile t) ++ (l.reverse.dropWhile t)).reverse := by
        rw [List.reverse_append]
        rfl
    _ = l := by rw [h, List.reverse_reverse]

theorem normalAux_dropTrailing (q : Char → Bool) (s : Char) (t : Char → Bool)
    (l : Str) (b : Bool) (h : NormalAux q s b l) :
    NormalAux q s b (dropTrailing t l) := by
  apply normalAux_append_left q s (dropTrailing t l) (l.reverse.takeWhile t).reverse b
  rw [dropTrailing_append t l]
  exact h

theorem normalAux_trimStr (q : Char → Bool) (s : Char) (l : Str) (b : Bool)
    (h : NormalAux q s b l) : NormalAux q s false (trimStr l) := by
  rw [trimStr]
  exact normalAux_dropTrailing q s isSpaceChar _ false
    (normalAux_dropWhile q s isSpaceChar l b h)

theorem mem_collapseAux (p : Char → Bool) (r : Char) :
    ∀ (l : Str) (fl : Bool) (c : Char),
      c ∈ collapseAux p r fl l → c ∈ l ∨ c = r := by
  intro l
  induction l with
  | nil => intro fl c h; simp [collapseAux] at h
  | cons a as ih =>
    intro fl c h
    by_cases ha : p a = true
    · cases fl with
      | true =>
        simp only [collapseAux, ha, if_true] at h
        rcases ih true c h with hm | hr
        · exact Or.inl (List.mem_cons_of_mem a hm)
        · exact Or.inr hr
      | false =>
        simp only [collapseAux, ha, if_true, Bool.false_eq_true, if_false] at h
        rcases List.mem_cons.mp h with rfl | h2
        · exact Or.inr rfl
        · rcases ih true c h2 with hm | hr
          · exact Or.inl (List.mem_cons_of_mem a hm)
          · exact Or.inr hr
    · simp only [collapseAux, ha, Bool.false_eq_true, if_false] at h
      rcases List.mem_cons.mp h with rfl | h2
      · exact Or.inl (List.mem_cons_self c as)
      · rcases ih false c h2 with hm | hr
        · exact Or.inl (List.mem_cons_of_mem a hm)
        · exact Or.inr hr

theorem mem_dropTrailing (t : Char → Bool) (l : Str) (c : Char)
    (h : c ∈ dropTrailing t l) : c ∈ l := by
  have : c ∈ dropTrailing t l ++ (l.reverse.takeWhile t).reverse :=
    List.mem_append_left _ h
  rw [dropTrailing_append t l] at this
  exact this

theorem mem_dropWhile (t : Char → Bool) (l : Str) (c : Char)
    (h : c ∈ l.dropWhile t) : c ∈ l := by
  have heq := List.takeWhile_append_dropWhile t l
  have : c ∈ l.takeWhile t ++ l.dropWhile t := List.mem_append_right _ h
  rw [heq] at this
  exact this

theorem mem_trimStr (l : Str) (c : Char) (h : c ∈ trimStr l) : c ∈ l := by
  rw [trimStr] at h
  exact mem_dropWhile isSpaceChar l c (mem_dropTrailing isSpaceChar _ c h)

theorem mem_sanitizeString (l : Str) (c : Char) (h : c ∈ sanitizeString l) :
    c ∈ l ∨ c = ' ' ∨ c = '-' := by
  rw [sanitizeString] at h
  have h1 := mem_trimStr _ c h
  rcases mem_collapseAux isDashChar '-' _ false c h1 with h2 | h2
  · rcases mem_collapseAux isSpaceChar ' ' _ false c h2 with h3 | h3
    · rcases List.mem_map.mp h3 with ⟨a, ha, hrepl⟩
      by_cases hinv : isInvalidChar a = true
      · rw [if_pos hinv] at hrepl
        exact Or.inr (Or.inr hrepl.symm)
      · rw [if_neg hinv] at hrepl
        exact Or.inl (hrepl ▸ ha)
    · exact Or.inr (Or.inl h3)
  · exact Or.inr (Or.inr h2)

theorem sanitizeString_no_invalid (l : Str) :
    ∀ c ∈ sanitizeString l, isInvalidChar c = false := by
  intro c h
  rw [sanitizeString] at h
  have h1 := mem_trimStr _ c h
  rcases mem_collapseAux isDashChar '-' _ false c h1 with h2 | h2
  · rcases mem_collapseAux isSpaceChar ' ' _ false c h2 with h3 | h3
    · rcases List.mem_map.mp h3 with ⟨a, _, hrepl⟩
      by_cases hinv : isInvalidChar a = true
      · rw [if_pos hinv] at hrepl
        rw [← hrepl]
        decide
      · rw [if_neg hinv] at hrepl
        rw [← hrepl]
        simpa using hinv
    · rw [h3]
      decide
  · rw [h2]
    decide

theorem map_repl_id (l : Str) (h : ∀ c ∈ l, isInvalidChar c = false) :
    l.map (fun c => if isInvalidChar c then '-' else c) = l := by
  induction l with
  | nil => rfl
  | cons c cs ih =>
    have hc := h c (List.mem_cons_self c cs)
    simp only [List.map_cons, hc, Bool.false_eq_true, if_false]
    rw [ih (fun a ha => h a (List.mem_cons_of_mem c ha))]

theorem dropWhile_head (t : Char → Bool) (l : Str) :
    l.dropWhile t = [] ∨ ∃ c cs, l.dropWhile t = c :: cs ∧ t c = false := by
  induction l with
  | nil => left; rfl
  | cons c cs ih =>
    by_cases h : t c = true
    · rw [List.dropWhile_cons_of_pos h]
      exact ih
    · rw [List.dropWhile_cons_of_neg (by simp [h])]
      right
      exact ⟨c, cs, rfl, by simpa using h⟩

theorem dropWhile_self_idem (t : Char → Bool) (l : Str) :
    List.dropWhile t (List.dropWhile t l) = List.dropWhile t l := by
  rcases dropWhile_head t l with h | ⟨c, cs, h, hc⟩
  · rw [h]
    rfl
  · rw [h, List.dropWhile_cons_of_neg (by simp [hc])]

theorem dropTrailing_idem (t : Char → Bool) (l : Str) :
    dropTrailing t (dropTrailing t l) = dropTrailing t l := by
  rw [dropTrailing, dropTrailing, List.reverse_reverse, dropWhile_self_idem]

theorem dropWhile_dropTrailing_dropWhile (t : Char → Bool) (l : Str) :
    List.dropWhile t (dropTrailing t (List.dropWhile t l)) =
      dropTrailing t (List.dropWhile t l) := by
  rcases dropWhile_head t l with hu | ⟨c, cs, hu, hc⟩
  · rw [hu]
    rfl
  · rw [hu]
    have hpre := dropTrailing_append t (c :: cs)
    rcases hs : dropTrailing t (c :: cs) with _ | ⟨c2, s2⟩
    · rfl
    · rw [hs] at hpre
      have hc2 : c2 = c := by
        have := congrArg (fun l => l.head?) hpre
        simpa using this
      subst hc2
      rw [List.dropWhile_cons_of_neg (by simp [hc])]

theorem trimStr_idem (l : Str) : trimStr (trimStr l) = trimStr l := by
  rw [trimStr, trimStr, dropWhile_dropTrailing_dropWhile, dropTrailing_idem]

theorem sanitizeString_idem (l : Str) :
    sanitizeString (sanitizeString l) = sanitizeString l := by
  have hno := sanitizeString_no_invalid l
  have h1 : (sanitizeString l).map (fun c => if isInvalidChar c then '-' else c) =
      sanitizeString l := map_repl_id _ hno
  have hsp : NormalAux isSpaceChar ' ' false (sanitizeString l) := by
    rw [sanitizeString]
    apply normalAux_trimStr
    apply normalAux_collapse_other isDashChar isSpaceChar '-' ' '
      (by decide)
      (by
        intro c hc
        have hcd : c = '-' := by simpa [isDashChar] using hc
        subst hcd
        decide)
      _ false false (fun hh => absurd hh (by simp))
    exact normalAux_collapseAux isSpaceChar ' ' (by decide) _ false
  have hda : NormalAux isDashChar '-' false (sanitizeString l) := by
    rw [sanitizeString]
    apply normalAux_trimStr
    exact normalAux_collapseAux isDashChar '-' (by decide) _ false
  have h2 : collapseRuns isSpaceChar ' ' (sanitizeString l) = sanitizeString l :=
    collapseAux_eq_self isSpaceChar ' ' _ false hsp
  have h3 : collapseRuns isDashChar '-' (sanitizeString l) = sanitizeString l :=
    collapseAux_eq_self isDashChar '-' _ false hda
  have h4 : trimStr (sanitizeString l) = sanitizeString l := by
    rw [sanitizeString]
    exact trimStr_idem _
  calc sanitizeString (sanitizeString l)
      = trimStr (collapseRuns isDashChar '-'
          (collapseRuns isSpaceChar ' ' (sanitizeString l))) := by rw [sanitizeString, h1]
    _ = trimStr (sanitizeString l) := by rw [h2, h3]
    _ = sanitizeString l := h4

theorem lastIdxOf_none_iff (c : Char) :
    ∀ l : Str, lastIdxOf c l = none ↔ c ∉ l := by
  intro l
  induction l with
  | nil => simp [lastIdxOf]
  | cons a as ih =>
    rcases h : lastIdxOf c as with _ | i
    · have has : c ∉ as := ih.mp h
      by_cases hac : a = c
      · subst hac
        simp [lastIdxOf, h]
      · simp [lastIdxOf, h, hac, has]
        intro hm
        exact hac hm.symm
    · have hin : c ∈ as := by
        by_contra hcon
        rw [ih.mpr hcon] at h
        simp at h
      simp [lastIdxOf, h, hin]

theorem lastIdxOf_append_last (c : Char) (rest : Str) (hrest : c ∉ rest) :
    ∀ xs : Str, lastIdxOf c (xs ++ c :: rest) = some xs.length := by
  intro xs
  induction xs with
  | nil =>
    rw [List.nil_append]
    simp [lastIdxOf, (lastIdxOf_none_iff c rest).mpr hrest]
  | cons a as ih =>
    rw [List.cons_append]
    simp [lastIdxOf, ih]

theorem lastIdxOf_spec (c : Char) :
    ∀ (l : Str) (i : Nat), lastIdxOf c l = some i →
      ∃ pre post, l = pre ++ c :: post ∧ pre.length = i ∧ c ∉ post := by
  intro l
  induction l with
  | nil => intro i h; simp [lastIdxOf] at h
  | cons a as ih =>
    intro i h
    simp only [lastIdxOf] at h
    rcases him : lastIdxOf c as with _ | j
    · rw [him] at h
      by_cases hac : a = c
      · rw [if_pos hac] at h
        subst hac
        have hi : i = 0 := by
          simpa using h.symm
        subst hi
        exact ⟨[], as, rfl, rfl, (lastIdxOf_none_iff a as).mp him⟩
      · rw [if_neg hac] at h
        simp at h
    · rw [him] at h
      have hi : i = j + 1 := by
        simpa using h.symm
      subst hi
      rcases ih j him with ⟨pre, post, hl, hlen, hpost⟩
      exact ⟨a :: pre, post, by rw [hl]; rfl, by simp [hlen], hpost⟩

/-- Claim C8: sanitizePath is idempotent — applying it twice gives the same
result as applying it once, for every filename. -/
theorem sanitizePath_idempotent (x : Str) :
    sanitizePath (sanitizePath x) = sanitizePath x := by
  rcases hli : lastIdxOf '.' x with _ | i
  · have h1 : sanitizePath x = sanitizeString x := by
      simp only [sanitizePath, hli]
    have hdot : '.' ∉ x := (lastIdxOf_none_iff '.' x).mp hli
    have hdot2 : '.' ∉ sanitizeString x := by
      intro hc
      rcases mem_sanitizeString x '.' hc with hm | hm | hm
      · exact hdot hm
      · exact absurd hm (by decide)
      · exact absurd hm (by decide)
    have hli2 : lastIdxOf '.' (sanitizeString x) = none :=
      (lastIdxOf_none_iff '.' (sanitizeString x)).mpr hdot2
    rw [h1]
    simp only [sanitizePath, hli2]
    exact sanitizeString_idem x
  · rcases lastIdxOf_spec '.' x i hli with ⟨pre, post, hl, hlen, hpost⟩
    have htake : x.take i = pre := by
      rw [hl, ← hlen]
      exact List.take_left pre _
    have hdrop : x.drop i = '.' :: post := by
      rw [hl, ← hlen]
      exact List.drop_left pre _
    have h1 : sanitizePath x = sanitizeString pre ++ '.' :: post := by
      simp only [sanitizePath, hli]
      rw [htake, hdrop]
    have hli2 : lastIdxOf '.' (sanitizeString pre ++ '.' :: post) =
        some (sanitizeString pre).length :=
      lastIdxOf_append_last '.' post hpost (sanitizeString pre)
    rw [h1]
    simp only [sanitizePath, hli2]
    rw [List.take_left (sanitizeString pre) _, List.drop_left (sanitizeString pre) _,
      sanitizeString_idem]

/-- Claim C9: for a filename with an extension (a dot at index `i`, the last
one), sanitizePath sanitizes only the base name and appends the input's
extension substring verbatim; the extension of the result — everything from
its last dot onward — is byte-identical to the input's extension
substring. -/
theorem sanitizePath_preserves_extension (x : Str) (i : Nat)
    (h : lastIdxOf '.' x = some i) :
    sanitizePath x = sanitizeString (x.take i) ++ x.drop i ∧
    ∃ j, lastIdxOf '.' (sanitizePath x) = some j ∧
      (sanitizePath x).drop j = x.drop i := by
  rcases lastIdxOf_spec '.' x i h with ⟨pre, post, hl, hlen, hpost⟩
  have htake : x.take i = pre := by
    rw [hl, ← hlen]
    exact List.take_left pre _
  have hdrop : x.drop i = '.' :: post := by
    rw [hl, ← hlen]
    exact List.drop_left pre _
  have h1 : sanitizePath x = sanitizeString (x.take i) ++ x.drop i := by
    simp only [sanitizePath, h]
  refine ⟨h1, (sanitizeString pre).length, ?_, ?_⟩
  · rw [h1, htake, hdrop]
    exact lastIdxOf_append_last '.' post hpost (sanitizeString pre)
  · rw [h1, htake, hdrop, List.drop_left (sanitizeString pre) _]

/-- Witness for C9, Scenario C of the spec: `My:Notes*.pdf` — the base is
sanitized to `My-Notes-` while `.pdf` survives byte-identically. -/
theorem sanitizePath_preserves_extension_witness :
    lastIdxOf '.' ("My:Notes*.pdf".data) = some 9 ∧
    (sanitizePath ("My:Notes*.pdf".data) =
        sanitizeString (("My:Notes*.pdf".data).take 9) ++ ("My:Notes*.pdf".data).drop 9 ∧
      ∃ j, lastIdxOf '.' (sanitizePath ("My:Notes*.pdf".data)) = some j ∧
        (sanitizePath ("My:Notes*.pdf".data)).drop j = ("My:Notes*.pdf".data).drop 9) :=
  ⟨by decide, sanitizePath_preserves_extension ("My:Notes*.pdf".data) 9 (by decide)⟩

/-- Claim C10: a dotfile — a name whose only dot is its first character —
passes through sanitizePath unchanged: the base name is empty, the whole
remainder is treated as the extension, and invalid characters in it survive
verbatim. -/
theorem sanitizePath_dotfile_unchanged (x : Str) (h : lastIdxOf '.' x = some 0) :
    sanitizePath x = x := by
  simp only [sanitizePath, h, List.take_zero, List.drop_zero]
  rfl

/-- Witness for C10: the dotfile `.My:Notes*` keeps its colon and asterisk. -/
theorem sanitizePath_dotfile_unchanged_witness :
    lastIdxOf '.' (".My:Notes*".data) = some 0 ∧
    sanitizePath (".My:Notes*".data) = ".My:Notes*".data :=
  ⟨by decide, sanitizePath_dotfile_unchanged (".My:Notes*".data) (by decide)⟩

end PDFUtils
